import Mathlib

/-!
Shallow embedding of the `gocron` cron-expression parser (package `gocron`,
files `parser.go` and the constant-delay schedule) together with the static
bounds registry.  Go `uint64` values are modelled as `Nat` with explicit
`% 2^64` where overflow matters; Go `time.Duration` and instants are modelled
as `Int` nanosecond counts; fallible functions return `Except` / `Option`.
-/

deriving instance DecidableEq for Except

/-- The modulus of Go `uint64` arithmetic. -/
def U64 : Nat := 2 ^ 64

/-- Go `uint64` left shift: in Go, shifting by 64 or more yields 0, which
`% 2^64` reproduces. -/
def goShl (x n : Nat) : Nat := (x <<< n) % U64

/-- Go `uint64` bitwise complement `^x`. -/
def goNot (x : Nat) : Nat := (U64 - 1) ^^^ x

/-- Go `math.MaxUint64`. -/
def maxUint64 : Nat := U64 - 1

/-- Splitting a rune list at every rune satisfying `p`, keeping empty
segments: the core of Go `strings.Split` (single-rune separator) and, after
discarding empty segments, of `strings.FieldsFunc` and `strings.Fields`. -/
def splitOnP (p : Char → Bool) : List Char → List (List Char)
  | [] => [[]]
  | x :: xs =>
    let r := splitOnP p xs
    if p x then [] :: r else (x :: r.headD []) :: r.tail

/-- Go `strings.Split(s, sep)` for a one-character separator. -/
def goSplit (s : String) (c : Char) : List String :=
  (splitOnP (fun x => x = c) s.data).map String.mk

/-- Go `strings.FieldsFunc(s, f)` for the predicate `r == ','` used by
`getField`: split on commas and drop empty segments. -/
def goFieldsComma (s : String) : List String :=
  ((splitOnP (fun x => x = ',') s.data).filter (fun l => l ≠ [])).map String.mk

/-- Go `unicode.IsSpace` restricted to the Latin-1 range it recognises. -/
def isGoSpace (c : Char) : Bool :=
  c = ' ' ∨ c = '\t' ∨ c = '\n' ∨ c = '\x0b' ∨ c = '\x0c' ∨ c = '\r' ∨
  c = '\u0085' ∨ c = ' '

/-- Go `strings.Fields`: split around runs of white space. -/
def goFields (s : String) : List String :=
  ((splitOnP isGoSpace s.data).filter (fun l => l ≠ [])).map String.mk

/-- Go `strings.HasPrefix`, on the rune lists (the stdlib byte comparison
coincides with rune-list comparison). -/
def goHasPre (pre s : String) : Bool := pre.data.isPrefixOf s.data

/-- Go string slicing `s[n:]` for an index falling on a rune boundary. -/
def goDrop (s : String) (n : Nat) : String := String.mk (s.data.drop n)

/-- Decimal value of a digit rune. -/
def digitVal (c : Char) : Nat := c.toNat - '0'.toNat

/-- Left-to-right accumulation of a digit list into a number. -/
def digitsToNat : List Char → Nat → Nat
  | [], acc => acc
  | c :: cs, acc => digitsToNat cs (acc * 10 + digitVal c)

/-- Parse a non-empty all-digit rune list. -/
def parseDigits (l : List Char) : Option Nat :=
  if l ≠ [] ∧ l.all Char.isDigit then some (digitsToNat l 0) else none

/-- Largest value of Go `int` on a 64-bit target. -/
def int64Max : Int := 9223372036854775807

/-- Smallest value of Go `int` on a 64-bit target. -/
def int64Min : Int := -9223372036854775808

/-- The out-of-range rejection of `strconv.ParseInt(s, 10, 0)`: a value
outside int64 is a range error, which `Atoi` surfaces as a non-nil error. -/
def atoiRange (v : Int) : Option Int :=
  if int64Min ≤ v ∧ v ≤ int64Max then some v else none

/-- Go `strconv.Atoi` on a 64-bit target: an optional sign followed by a
non-empty digit string, rejected when the value overflows int64. -/
def goAtoi (s : String) : Option Int :=
  match s.data with
  | '+' :: rest => (parseDigits rest).bind (fun n => atoiRange (Int.ofNat n))
  | '-' :: rest => (parseDigits rest).bind (fun n => atoiRange (-(n : Int)))
  | l => (parseDigits l).bind (fun n => atoiRange (Int.ofNat n))

/-- Go `strings.ToLower` restricted to ASCII, which covers every name table
key and lookup the parser performs. -/
def goToLower (s : String) : String := String.mk (s.data.map Char.toLower)

/-- The error values produced by the parser, one constructor per distinct
`fmt.Errorf` format in `parser.go`, carrying the same arguments. -/
inductive ParseErr where
  | failedParseInt (expr : String)
  | negativeNum (num : Int) (expr : String)
  | tooManyHyphens (expr : String)
  | tooManySlashes (expr : String)
  | belowMin (start min : Nat) (expr : String)
  | aboveMax (endv max : Nat) (expr : String)
  | beyondEnd (start endv : Nat) (expr : String)
  | zeroStep (expr : String)
  | emptySpec
  | wrongFieldCount (expected found : Nat) (fields : List String)
  | failedParseDuration (descriptor : String)
  | unrecognizedDescriptor (descriptor : String)
deriving DecidableEq, Repr

/-- Bounds for a cron field: `bounds` struct of the package. -/
structure bounds where
  min : Nat
  max : Nat
  names : Option (List (String × Nat))
deriving DecidableEq, Repr

/-- Modelled from the spec: the Bounds Registry entry for seconds (0-59, no
names); the registry lives in a repository file outside `src/`. -/
def seconds : bounds := ⟨0, 59, none⟩

/-- Modelled from the spec: minutes bounds 0-59, no names. -/
def minutes : bounds := ⟨0, 59, none⟩

/-- Modelled from the spec: hours bounds 0-23, no names. -/
def hours : bounds := ⟨0, 23, none⟩

/-- Modelled from the spec: day-of-month bounds 1-31, no names. -/
def doms : bounds := ⟨1, 31, none⟩

/-- Modelled from the spec: month bounds 1-12 with names jan..dec. -/
def months : bounds :=
  ⟨1, 12, some [("jan", 1), ("feb", 2), ("mar", 3), ("apr", 4), ("may", 5),
    ("jun", 6), ("jul", 7), ("aug", 8), ("sep", 9), ("oct", 10),
    ("nov", 11), ("dec", 12)]⟩

/-- Modelled from the spec: day-of-week bounds 0-6 with names sun..sat. -/
def dows : bounds :=
  ⟨0, 6, some [("sun", 0), ("mon", 1), ("tue", 2), ("wed", 3), ("thu", 4),
    ("fri", 5), ("sat", 6)]⟩

/-- Modelled from the spec: the reserved wildcard-marker bit, one bit above
every value bit in the 64-bit mask. -/
def starBit : Nat := 1 <<< 63

/-- `mustParseInt` of `parser.go`: parse as int, reject negatives
distinctly. -/
def mustParseInt (expr : String) : Except ParseErr Nat :=
  match goAtoi expr with
  | none => .error (.failedParseInt expr)
  | some num =>
    if num < 0 then .error (.negativeNum num expr) else .ok num.toNat

/-- `parseIntOrName` of `parser.go`: a name-table lookup on the lowercased
text first, then `mustParseInt`. -/
def parseIntOrName (expr : String) (names : Option (List (String × Nat))) :
    Except ParseErr Nat :=
  match names with
  | some m =>
    match m.lookup (goToLower expr) with
    | some namedInt => .ok namedInt
    | none => mustParseInt expr
  | none => mustParseInt expr

/-- The `for i := min; i <= max; i += step` loop of `getBits`, with explicit
fuel; `max + 1 - min` iterations suffice for every positive step. -/
def getBitsLoop : Nat → Nat → Nat → Nat → Nat → Nat
  | 0, _, _, _, bits => bits
  | fuel + 1, i, max, step, bits =>
    if i ≤ max then getBitsLoop fuel (i + step) max step (bits ||| goShl 1 i)
    else bits

/-- `getBits` of `parser.go`: all bits in `[min, max]` modulo the step. -/
def getBits (min max step : Nat) : Nat :=
  if step = 1 then goNot (goShl maxUint64 (max + 1)) &&& goShl maxUint64 min
  else getBitsLoop (max + 1 - min) min max step 0

/-- `allBits` of `parser.go`: all bits within the bounds plus the star bit. -/
def allBits (r : bounds) : Nat := getBits r.min r.max 1 ||| starBit

/-- The first half of `getRange`: resolve `lowAndHigh` into
`(start, end, extra)`, with the wildcard branch ignoring everything after a
leading `*`/`?` and the numeric branch counting hyphen segments. -/
def rangeStartEnd (expr : String) (r : bounds) (lowAndHigh : List String) :
    Except ParseErr (Nat × Nat × Nat) :=
  if lowAndHigh.headD "" = "*" ∨ lowAndHigh.headD "" = "?" then
    .ok (r.min, r.max, starBit)
  else
    match parseIntOrName (lowAndHigh.headD "") r.names with
    | .error e => .error e
    | .ok start =>
      match lowAndHigh with
      | [_] => .ok (start, start, 0)
      | [_, hi] =>
        match parseIntOrName hi r.names with
        | .error e => .error e
        | .ok endv => .ok (start, endv, 0)
      | _ => .error (.tooManyHyphens expr)

/-- The step half of `getRange`: resolve `rangeAndStep` into
`(step, end, extra)`, turning `N/step` into `N-max/step` and clearing the
star bit when an explicit step exceeds 1. -/
def rangeStep (expr : String) (r : bounds) (singleDigit : Bool)
    (endv extra : Nat) (rangeAndStep : List String) :
    Except ParseErr (Nat × Nat × Nat) :=
  match rangeAndStep with
  | [_] => .ok (1, endv, extra)
  | [_, stepStr] =>
    match mustParseInt stepStr with
    | .error e => .error e
    | .ok step =>
      let endv := if singleDigit then r.max else endv
      let extra := if 1 < step then 0 else extra
      .ok (step, endv, extra)
  | _ => .error (.tooManySlashes expr)

/-- The validation tail of `getRange`, in source order, and the final
`getBits(start, end, step) | extra`. -/
def rangeChecks (expr : String) (r : bounds) (start endv step extra : Nat) :
    Except ParseErr Nat :=
  if start < r.min then .error (.belowMin start r.min expr)
  else if r.max < endv then .error (.aboveMax endv r.max expr)
  else if endv < start then .error (.beyondEnd start endv expr)
  else if step = 0 then .error (.zeroStep expr)
  else .ok (getBits start endv step ||| extra)

/-- `getRange` of `parser.go`: the bits denoted by one
`number | number "-" number [ "/" number ]` expression; `p` is
`(start, end, extra)` and `q` is `(step, end, extra)` after the step
rewrite. -/
def getRange (expr : String) (r : bounds) : Except ParseErr Nat :=
  let rangeAndStep := goSplit expr '/'
  let lowAndHigh := goSplit (rangeAndStep.headD "") '-'
  let singleDigit := lowAndHigh.length == 1
  Except.bind (rangeStartEnd expr r lowAndHigh) (fun p =>
    Except.bind (rangeStep expr r singleDigit p.2.1 p.2.2 rangeAndStep)
      (fun q => rangeChecks expr r p.1 q.2.1 q.1 q.2.2))

/-- `getField` of `parser.go`: a comma-separated list of ranges, unioned;
the first range error aborts the field. -/
def getField (field : String) (r : bounds) : Except ParseErr Nat :=
  (goFieldsComma field).foldlM
    (fun bits expr => (getRange expr r).map (fun bit => bits ||| bit)) 0

/-- A `*time.Location` value, opaque to the parser: only stored. -/
structure Location where
  name : String
deriving DecidableEq, Repr

/-- `specSchedule`: six field masks plus the location. -/
structure specSchedule where
  second : Nat
  minute : Nat
  hour : Nat
  dom : Nat
  month : Nat
  dow : Nat
  location : Location
deriving DecidableEq, Repr

/-- Go `time.Second` as a nanosecond count. -/
def timeSecond : Int := 1000000000

/-- `everySchedule`: a constant-delay schedule, the delay in nanoseconds. -/
structure everySchedule where
  delay : Int
deriving DecidableEq, Repr

/-- `every` of the constant-delay file: clamp the duration up to one second,
then truncate sub-second precision (Go `%` on integers is `Int.tmod`). -/
def every (duration : Int) : everySchedule :=
  let duration := if duration < timeSecond then timeSecond else duration
  ⟨duration - Int.tmod duration timeSecond⟩

/-- Go `Time.Nanosecond()`: the nanosecond offset within the second, in
`[0, 1e9)`; an instant is modelled as an absolute nanosecond count, for
which that offset is the Euclidean remainder. -/
def timeNanosecond (t : Int) : Int := t % timeSecond

/-- `everySchedule.Next`: add the delay after zeroing the instant's
sub-second nanoseconds. -/
def everyNext (s : everySchedule) (t : Int) : Int :=
  t + (s.delay - timeNanosecond t)

/-- The two schedule kinds behind the `Schedule` interface. -/
inductive Schedule where
  | spec (s : specSchedule)
  | interval (s : everySchedule)
deriving DecidableEq, Repr

/-- Modelled from the spec: Go `time.ParseDuration` unit table (the stdlib
is outside the repository). -/
def unitMap : List (String × Int) :=
  [("ns", 1), ("us", 1000), ("µs", 1000), ("μs", 1000), ("ms", 1000000),
   ("s", 1000000000), ("m", 60000000000), ("h", 3600000000000)]

/-- Modelled from the spec: the component loop of Go `time.ParseDuration`
(digits then a unit token, repeated); fractional components, which the
stdlib resolves through float arithmetic, are treated as parse failures —
no claim exercises them. -/
def parseDurBody : Nat → List Char → Int → Option Int
  | 0, l, acc => if l = [] then some acc else none
  | fuel + 1, l, acc =>
    match l with
    | [] => some acc
    | _ =>
      let ds := l.takeWhile Char.isDigit
      let rest := l.dropWhile Char.isDigit
      if ds = [] then none
      else
        match rest with
        | '.' :: _ => none
        | _ =>
          let us := rest.takeWhile (fun c => !(c.isDigit || c = '.'))
          let rest2 := rest.dropWhile (fun c => !(c.isDigit || c = '.'))
          match unitMap.lookup (String.mk us) with
          | none => none
          | some mult => parseDurBody fuel rest2 (acc + (digitsToNat ds 0 : Int) * mult)

/-- Modelled from the spec: Go `time.ParseDuration` — sign, the bare "0"
special case, then unit-suffixed components. -/
def parseDuration (s : String) : Option Int :=
  match s.data with
  | [] => none
  | l =>
    let neg : Bool := match l with | '-' :: _ => true | _ => false
    let l2 : List Char :=
      match l with
      | '-' :: r => r
      | '+' :: r => r
      | r => r
    if l2 = ['0'] then some 0
    else if l2 = [] then none
    else (parseDurBody l2.length l2 0).map (fun v => if neg then -v else v)

/-- `parseDescriptor` of `parser.go`: the `@` shorthands. -/
def parseDescriptor (descriptor : String) (loc : Location) :
    Except ParseErr Schedule :=
  if descriptor = "@yearly" ∨ descriptor = "@annually" then
    .ok (.spec ⟨goShl 1 seconds.min, goShl 1 minutes.min, goShl 1 hours.min,
      goShl 1 doms.min, goShl 1 months.min, allBits dows, loc⟩)
  else if descriptor = "@monthly" then
    .ok (.spec ⟨goShl 1 seconds.min, goShl 1 minutes.min, goShl 1 hours.min,
      goShl 1 doms.min, allBits months, allBits dows, loc⟩)
  else if descriptor = "@weekly" then
    .ok (.spec ⟨goShl 1 seconds.min, goShl 1 minutes.min, goShl 1 hours.min,
      allBits doms, allBits months, goShl 1 dows.min, loc⟩)
  else if descriptor = "@daily" ∨ descriptor = "@midnight" then
    .ok (.spec ⟨goShl 1 seconds.min, goShl 1 minutes.min, goShl 1 hours.min,
      allBits doms, allBits months, allBits dows, loc⟩)
  else if descriptor = "@hourly" then
    .ok (.spec ⟨goShl 1 seconds.min, goShl 1 minutes.min, allBits hours,
      allBits doms, allBits months, allBits dows, loc⟩)
  else if goHasPre "@every " descriptor then
    match parseDuration (goDrop descriptor 7) with
    | none => .error (.failedParseDuration descriptor)
    | some duration => .ok (.interval (every duration))
  else .error (.unrecognizedDescriptor descriptor)

/-- `ParseWithLocation` of `parser.go`: empty check, descriptor routing,
six-field split, per-field compilation with first-error abort (the Go
closure skips every later `getField` call once an error is recorded, which
sequential binding reproduces), and `specSchedule` assembly. -/
def ParseWithLocation (spec : String) (loc : Location) :
    Except ParseErr Schedule :=
  if spec.length = 0 then .error .emptySpec
  else if goHasPre "@" spec then parseDescriptor spec loc
  else
    let fields := goFields spec
    if fields.length ≠ 6 then
      .error (.wrongFieldCount 6 fields.length fields)
    else do
      let second ← getField (fields.getD 0 "") seconds
      let minute ← getField (fields.getD 1 "") minutes
      let hour ← getField (fields.getD 2 "") hours
      let dom ← getField (fields.getD 3 "") doms
      let month ← getField (fields.getD 4 "") months
      let dow ← getField (fields.getD 5 "") dows
      pure (.spec ⟨second, minute, hour, dom, month, dow, loc⟩)

/-- `Parse` of `parser.go`: `ParseWithLocation` at the ambient local zone. -/
def Parse (spec : String) : Except ParseErr Schedule :=
  ParseWithLocation spec ⟨"Local"⟩

/-! ### Bit-level lemmas -/

theorem testBit_goShl (x n j : Nat) :
    (goShl x n).testBit j =
      (decide (j < 64) && (decide (j ≥ n) && x.testBit (j - n))) := by
  simp only [goShl, U64, Nat.testBit_mod_two_pow, Nat.testBit_shiftLeft]

theorem testBit_goNot (x j : Nat) :
    (goNot x).testBit j = (decide (j < 64) ^^ x.testBit j) := by
  simp only [goNot, U64, Nat.testBit_xor, Nat.testBit_two_pow_sub_one]

theorem testBit_starBit (j : Nat) : starBit.testBit j = decide (j = 63) := by
  have h : starBit = 2 ^ 63 := by decide
  rw [h, Nat.testBit_two_pow]
  simp [eq_comm]

theorem U64_pos : 0 < U64 := by decide

theorem goShl_lt (x n : Nat) : goShl x n < U64 := Nat.mod_lt _ U64_pos

theorem testBit_goShl_iff (x n j : Nat) :
    ((goShl x n).testBit j = true) ↔
      (j < 64 ∧ n ≤ j ∧ x.testBit (j - n) = true) := by
  rw [testBit_goShl]
  simp only [Bool.and_eq_true, decide_eq_true_eq, ge_iff_le]

theorem testBit_goNot_iff (x j : Nat) (hx : x < U64) :
    ((goNot x).testBit j = true) ↔ (j < 64 ∧ x.testBit j = false) := by
  rw [testBit_goNot]
  by_cases hj : j < 64
  · simp [hj]
  · have h2 : U64 ≤ 2 ^ j := by
      have : (64 : Nat) ≤ j := by omega
      calc U64 = 2 ^ 64 := rfl
        _ ≤ 2 ^ j := Nat.pow_le_pow_right (by norm_num) this
    have hxb : x.testBit j = false :=
      Nat.testBit_eq_false_of_lt (lt_of_lt_of_le hx h2)
    simp [hj, hxb]

theorem testBit_maxUint64 (j : Nat) : (maxUint64.testBit j = true) ↔ j < 64 := by
  have h : maxUint64 = 2 ^ 64 - 1 := rfl
  rw [h, Nat.testBit_two_pow_sub_one]
  simp

theorem testBit_getBitsLoop (step : Nat) (hstep : 0 < step) (max : Nat)
    (hmax : max < 64) :
    ∀ (fuel i bits j : Nat), max + 1 - i ≤ fuel →
      ((getBitsLoop fuel i max step bits).testBit j = true ↔
        (bits.testBit j = true ∨ (i ≤ j ∧ j ≤ max ∧ (j - i) % step = 0))) := by
  intro fuel
  induction fuel with
  | zero =>
    intro i bits j hfuel
    simp only [getBitsLoop]
    constructor
    · exact fun h => Or.inl h
    · rintro (h | ⟨h1, h2, _⟩)
      · exact h
      · omega
  | succ n ih =>
    intro i bits j hfuel
    simp only [getBitsLoop]
    by_cases hi : i ≤ max
    · rw [if_pos hi, ih (i + step) _ j (by omega)]
      have hbit : ((bits ||| goShl 1 i).testBit j = true) ↔
          (bits.testBit j = true ∨ j = i) := by
        rw [Nat.testBit_lor, Bool.or_eq_true, testBit_goShl]
        have h1 : (1 : Nat) = 2 ^ 0 := rfl
        rw [h1, Nat.testBit_two_pow]
        simp only [Bool.and_eq_true, decide_eq_true_eq, ge_iff_le]
        constructor
        · rintro (hb | ⟨_, _, h3⟩)
          · exact Or.inl hb
          · exact Or.inr (by omega)
        · rintro (hb | rfl)
          · exact Or.inl hb
          · exact Or.inr ⟨by omega, le_refl _, by omega⟩
      rw [hbit]
      constructor
      · rintro ((hb | rfl) | ⟨h1, h2, h3⟩)
        · exact Or.inl hb
        · exact Or.inr ⟨le_refl _, hi, by simp⟩
        · refine Or.inr ⟨by omega, h2, ?_⟩
          have : j - i = (j - (i + step)) + step := by omega
          rw [this, Nat.add_mod_right]
          exact h3
      · rintro (hb | ⟨h1, h2, h3⟩)
        · exact Or.inl (Or.inl hb)
        · by_cases hji : j = i
          · exact Or.inl (Or.inr hji)
          · have hd : step ∣ (j - i) := Nat.dvd_of_mod_eq_zero h3
            have hpos : 0 < j - i := by omega
            have hle : step ≤ j - i := Nat.le_of_dvd hpos hd
            refine Or.inr ⟨by omega, h2, ?_⟩
            have : j - i = (j - (i + step)) + step := by omega
            rw [this, Nat.add_mod_right] at h3
            exact h3
    · rw [if_neg hi]
      constructor
      · exact fun h => Or.inl h
      · rintro (h | ⟨h1, h2, _⟩)
        · exact h
        · omega

theorem testBit_getBits (min max step j : Nat) (hstep : 0 < step)
    (hmax : max < 64) :
    ((getBits min max step).testBit j = true ↔
      (min ≤ j ∧ j ≤ max ∧ (j - min) % step = 0)) := by
  unfold getBits
  by_cases h1 : step = 1
  · subst h1
    rw [if_pos rfl]
    rw [Nat.testBit_land, Bool.and_eq_true,
      testBit_goNot_iff _ _ (goShl_lt _ _), testBit_goShl_iff,
      Bool.eq_false_iff, Ne, testBit_goShl_iff]
    simp only [testBit_maxUint64, Nat.mod_one]
    constructor
    · rintro ⟨⟨hj, hno⟩, _, hmin, _⟩
      refine ⟨hmin, ?_, trivial⟩
      by_contra hgt
      exact hno ⟨hj, by omega, by omega⟩
    · rintro ⟨hmin, hle, _⟩
      have hj : j < 64 := by omega
      exact ⟨⟨hj, fun ⟨_, h2, _⟩ => by omega⟩, hj, hmin, by omega⟩
  · rw [if_neg h1]
    rw [testBit_getBitsLoop step hstep max hmax (max + 1 - min) min 0 j
      (le_refl _)]
    simp [Nat.zero_testBit]

/-! ### Success-shape lemmas for the range compiler -/

theorem except_bind_ok {ε α β : Type} (a : Except ε α) (f : α → Except ε β)
    (b : β) :
    (Except.bind a f = .ok b) ↔ (∃ v, a = .ok v ∧ f v = .ok b) := by
  cases a <;> simp [Except.bind]

theorem monad_bind_ok {ε α β : Type} (a : Except ε α) (f : α → Except ε β)
    (b : β) :
    ((a >>= f) = .ok b) ↔ (∃ v, a = .ok v ∧ f v = .ok b) := by
  cases a <;> simp [Bind.bind, Except.bind]

theorem rangeStartEnd_extra (expr : String) (r : bounds) (lah : List String)
    (s e x : Nat) (h : rangeStartEnd expr r lah = .ok (s, e, x)) :
    x = 0 ∨ x = starBit := by
  unfold rangeStartEnd at h
  split_ifs at h with hw
  · simp only [Except.ok.injEq, Prod.mk.injEq] at h
    exact Or.inr h.2.2.symm
  · split at h
    · simp at h
    · split at h
      · simp only [Except.ok.injEq, Prod.mk.injEq] at h
        exact Or.inl h.2.2.symm
      · split at h
        · simp at h
        · simp only [Except.ok.injEq, Prod.mk.injEq] at h
          exact Or.inl h.2.2.symm
      · simp at h

theorem rangeStep_shape (expr : String) (r : bounds) (sd : Bool)
    (endv extra : Nat) (ras : List String) (st e2 x2 : Nat)
    (h : rangeStep expr r sd endv extra ras = .ok (st, e2, x2)) :
    x2 = 0 ∨ x2 = extra := by
  unfold rangeStep at h
  split at h
  · simp only [Except.ok.injEq, Prod.mk.injEq] at h
    exact Or.inr h.2.2.symm
  · split at h
    · simp at h
    · simp only [Except.ok.injEq, Prod.mk.injEq] at h
      obtain ⟨-, -, hx⟩ := h
      split at hx
      · exact Or.inl hx.symm
      · exact Or.inr hx.symm
  · simp at h

theorem rangeChecks_ok (expr : String) (r : bounds) (s e st x m : Nat)
    (h : rangeChecks expr r s e st x = .ok m) :
    r.min ≤ s ∧ s ≤ e ∧ e ≤ r.max ∧ 0 < st ∧ m = getBits s e st ||| x := by
  unfold rangeChecks at h
  split_ifs at h with h1 h2 h3 h4
  all_goals
    first
      | exact Except.noConfusion h
      | (simp only [Except.ok.injEq] at h
         exact ⟨by omega, by omega, by omega, by omega, h.symm⟩)

theorem getRange_ok_shape (expr : String) (r : bounds) (m : Nat)
    (h : getRange expr r = .ok m) :
    ∃ s e st x, r.min ≤ s ∧ s ≤ e ∧ e ≤ r.max ∧ 0 < st ∧
      (x = 0 ∨ x = starBit) ∧ m = getBits s e st ||| x := by
  simp only [getRange] at h
  rw [except_bind_ok] at h
  obtain ⟨⟨s0, e0, x0⟩, hse, h⟩ := h
  rw [except_bind_ok] at h
  obtain ⟨⟨st0, e1, x1⟩, hst, h⟩ := h
  obtain ⟨hb1, hb2, hb3, hb4, hb5⟩ := rangeChecks_ok expr r s0 e1 st0 x1 m h
  have hx0 := rangeStartEnd_extra expr r _ s0 e0 x0 hse
  have hx1 := rangeStep_shape expr r _ e0 x0 _ st0 e1 x1 hst
  refine ⟨s0, e1, st0, x1, hb1, hb2, hb3, hb4, ?_, hb5⟩
  rcases hx1 with rfl | rfl
  · exact Or.inl rfl
  · exact hx0

/-- The value-bit invariant a compiled field mask satisfies, stated with the
wildcard-marker position excluded. -/
def maskOkFor (m : Nat) (r : bounds) : Prop :=
  ∀ j, j ≠ 63 → m.testBit j = true → r.min ≤ j ∧ j ≤ r.max

/-- A mask with at least one value bit (a bit other than the marker). -/
def maskNonempty (m : Nat) : Prop := ∃ j, j ≠ 63 ∧ m.testBit j = true

theorem getRange_ok_mask (expr : String) (r : bounds) (m : Nat)
    (h : getRange expr r = .ok m) (hmax : r.max < 63) :
    maskOkFor m r ∧ maskNonempty m := by
  obtain ⟨s, e, st, x, h1, h2, h3, h4, h5, rfl⟩ := getRange_ok_shape expr r m h
  constructor
  · intro j hne hbit
    rw [Nat.testBit_lor, Bool.or_eq_true] at hbit
    rcases hbit with hb | hb
    · have := (testBit_getBits s e st j h4 (by omega)).mp hb
      omega
    · rcases h5 with rfl | rfl
      · simp [Nat.zero_testBit] at hb
      · rw [testBit_starBit] at hb
        simp at hb
        exact absurd hb hne
  · refine ⟨s, by omega, ?_⟩
    rw [Nat.testBit_lor, Bool.or_eq_true]
    left
    exact (testBit_getBits s e st s h4 (by omega)).mpr ⟨le_refl _, h2, by simp⟩

theorem foldRanges_ok (r : bounds) (hmax : r.max < 63) (l : List String) :
    ∀ (acc m : Nat),
      l.foldlM (fun bits expr => (getRange expr r).map (fun bit => bits ||| bit))
        acc = .ok m →
      ((∀ j, j ≠ 63 → m.testBit j = true →
          (acc.testBit j = true ∨ (r.min ≤ j ∧ j ≤ r.max))) ∧
       (∀ j, acc.testBit j = true → m.testBit j = true) ∧
       (l ≠ [] → maskNonempty m)) := by
  induction l with
  | nil =>
    intro acc m h
    simp only [List.foldlM_nil] at h
    have : acc = m := by simpa [pure, Except.pure] using h
    subst this
    exact ⟨fun j _ hb => Or.inl hb, fun j hb => hb, fun hne => absurd rfl hne⟩
  | cons x xs ih =>
    intro acc m h
    rw [List.foldlM_cons] at h
    cases hg : getRange x r with
    | error e =>
      rw [hg] at h
      simp [Except.map, bind, Except.bind] at h
    | ok b =>
      rw [hg] at h
      simp only [Except.map, bind, Except.bind] at h
      obtain ⟨ih1, ih2, -⟩ := ih (acc ||| b) m h
      obtain ⟨hok, hne⟩ := getRange_ok_mask x r b hg hmax
      refine ⟨?_, ?_, ?_⟩
      · intro j hj hbit
        rcases ih1 j hj hbit with hb | hb
        · rw [Nat.testBit_lor, Bool.or_eq_true] at hb
          rcases hb with hb | hb
          · exact Or.inl hb
          · exact Or.inr (hok j hj hb)
        · exact Or.inr hb
      · intro j hb
        exact ih2 j (by rw [Nat.testBit_lor, Bool.or_eq_true]; exact Or.inl hb)
      · intro _
        obtain ⟨j, hj, hb⟩ := hne
        exact ⟨j, hj, ih2 j
          (by rw [Nat.testBit_lor, Bool.or_eq_true]; exact Or.inr hb)⟩

theorem getField_ok (f : String) (r : bounds) (m : Nat)
    (h : getField f r = .ok m) (hmax : r.max < 63) :
    maskOkFor m r ∧ (goFieldsComma f ≠ [] → maskNonempty m) := by
  unfold getField at h
  obtain ⟨h1, -, h3⟩ := foldRanges_ok r hmax (goFieldsComma f) 0 m h
  refine ⟨fun j hj hb => ?_, h3⟩
  rcases h1 j hj hb with hb0 | hb0
  · simp [Nat.zero_testBit] at hb0
  · exact hb0

/-! ### Splitting lemmas -/

theorem splitOnP_eq_single (p : Char → Bool) (l : List Char)
    (h : ∀ c ∈ l, p c = false) : splitOnP p l = [l] := by
  induction l with
  | nil => rfl
  | cons x xs ih =>
    have hx : p x = false := h x (by simp)
    simp only [splitOnP, hx, Bool.false_eq_true, if_false,
      ih (fun c hc => h c (by simp [hc]))]
    rfl

theorem splitOnP_append_sep (p : Char → Bool) (a : List Char) (c : Char)
    (b : List Char) (ha : ∀ x ∈ a, p x = false) (hc : p c = true) :
    splitOnP p (a ++ c :: b) = a :: splitOnP p b := by
  induction a with
  | nil => simp [splitOnP, hc]
  | cons x xs ih =>
    have hx : p x = false := ha x (by simp)
    show splitOnP p (x :: (xs ++ c :: b)) = (x :: xs) :: splitOnP p b
    simp only [splitOnP, hx, Bool.false_eq_true, if_false]
    rw [ih (fun y hy => ha y (by simp [hy]))]
    rfl

theorem rangeChecks_pass (expr : String) (r : bounds) (s e st x : Nat)
    (h1 : r.min ≤ s) (h2 : e ≤ r.max) (h3 : s ≤ e) (h4 : 0 < st) :
    rangeChecks expr r s e st x = .ok (getBits s e st ||| x) := by
  unfold rangeChecks
  rw [if_neg (by omega), if_neg (by omega), if_neg (by omega),
    if_neg (by omega)]

theorem splitOnP_ne_nil (p : Char → Bool) (l : List Char) :
    splitOnP p l ≠ [] := by
  cases l with
  | nil => simp [splitOnP]
  | cons x xs =>
    simp only [splitOnP]
    split <;> simp

theorem rangeStartEnd_two (expr : String) (r : bounds) (a b : String)
    (hna : ¬(a = "*" ∨ a = "?")) (lo hi : Nat)
    (hpa : parseIntOrName a r.names = .ok lo)
    (hpb : parseIntOrName b r.names = .ok hi) :
    rangeStartEnd expr r [a, b] = .ok (lo, hi, 0) := by
  unfold rangeStartEnd
  simp only [List.headD_cons]
  rw [if_neg hna]
  simp only [hpa, hpb]

theorem rangeStartEnd_one (expr : String) (r : bounds) (a : String)
    (hna : ¬(a = "*" ∨ a = "?")) (lo : Nat)
    (hpa : parseIntOrName a r.names = .ok lo) :
    rangeStartEnd expr r [a] = .ok (lo, lo, 0) := by
  unfold rangeStartEnd
  simp only [List.headD_cons]
  rw [if_neg hna]
  simp only [hpa]

theorem rangeStep_two (expr : String) (r : bounds) (sd : Bool)
    (endv extra : Nat) (s1 s2 : String) (step : Nat)
    (hs2 : mustParseInt s2 = .ok step) :
    rangeStep expr r sd endv extra [s1, s2] =
      .ok (step, if sd then r.max else endv,
        if 1 < step then 0 else extra) := by
  unfold rangeStep
  simp only [hs2]

theorem rangeStep_err_shape (expr : String) (r : bounds) (sd : Bool)
    (endv extra : Nat) (ras : List String) (e : ParseErr) (a : String)
    (h : rangeStep expr r sd endv extra ras = .error e) :
    e ≠ .tooManyHyphens a := by
  unfold rangeStep at h
  split at h
  · exact absurd h (by simp)
  · split at h
    · rename_i stepStr hmp
      simp only [Except.error.injEq] at h
      subst h
      unfold mustParseInt at hmp
      split at hmp
      · simp only [Except.error.injEq] at hmp
        subst hmp
        simp
      · split at hmp
        · simp only [Except.error.injEq] at hmp
          subst hmp
          simp
        · exact absurd hmp (by simp)
    · exact absurd h (by simp)
  · simp only [Except.error.injEq] at h
    subst h
    simp

theorem rangeChecks_err_shape (expr : String) (r : bounds)
    (s0 e0 st x : Nat) (e : ParseErr) (a : String)
    (h : rangeChecks expr r s0 e0 st x = .error e) :
    e ≠ .tooManyHyphens a := by
  unfold rangeChecks at h
  split_ifs at h
  all_goals
    first
      | exact Except.noConfusion h
      | (simp only [Except.error.injEq] at h
         subst h
         simp)

theorem mustParseInt_not_star (s : String) (n : Nat)
    (h : mustParseInt s = .ok n) : ¬(s = "*" ∨ s = "?") := by
  rintro (rfl | rfl)
  · rw [show mustParseInt "*" = .error (.failedParseInt "*") from by decide] at h
    exact Except.noConfusion h
  · rw [show mustParseInt "?" = .error (.failedParseInt "?") from by decide] at h
    exact Except.noConfusion h

example : getRange "5" ⟨0, 7, none⟩ = .ok (1 <<< 5) := by decide
example : getRange "5-7/2" ⟨0, 7, none⟩ = .ok (1 <<< 5 ||| 1 <<< 7) := by decide
example : getRange "*" ⟨1, 3, none⟩ = .ok (14 ||| starBit) := by decide
example : getRange "*/2" ⟨1, 3, none⟩ = .ok 10 := by decide
example : getRange "5--5" ⟨0, 0, none⟩ = .error (.tooManyHyphens "5--5") := by decide
example : getRange "*/-12" ⟨0, 0, none⟩ = .error (.negativeNum (-12) "-12") := by decide
example : getRange "*//2" ⟨0, 0, none⟩ = .error (.tooManySlashes "*//2") := by decide
example : getRange "1" ⟨3, 5, none⟩ = .error (.belowMin 1 3 "1") := by decide
example : getRange "6" ⟨3, 5, none⟩ = .error (.aboveMax 6 5 "6") := by decide
example : getRange "5-3" ⟨3, 5, none⟩ = .error (.beyondEnd 5 3 "5-3") := by decide
example : getRange "*/0" ⟨0, 0, none⟩ = .error (.zeroStep "*/0") := by decide
example : getField "1,5-7/2,3" ⟨1, 7, none⟩ = .ok (2 ||| 32 ||| 128 ||| 8) := by decide
example : ParseWithLocation "" ⟨"L"⟩ = .error .emptySpec := by decide
example : ParseWithLocation "* * * *" ⟨"L"⟩ =
    .error (.wrongFieldCount 6 4 ["*", "*", "*", "*"]) := by decide
example : ParseWithLocation "@bogus" ⟨"L"⟩ =
    .error (.unrecognizedDescriptor "@bogus") := by decide
example : parseDuration "5m" = some 300000000000 := by decide
example : ParseWithLocation "@every 5m" ⟨"L"⟩ =
    .ok (.interval ⟨300000000000⟩) := by decide
example : ParseWithLocation ", * * * * *" ⟨"L"⟩ =
    .ok (.spec ⟨0, allBits minutes, allBits hours, allBits doms,
      allBits months, allBits dows, ⟨"L"⟩⟩) := by decide

/-! ### Claim C3 -/

/-- C3: over bounds `[min, max]`, compiling `"*"` (or `"?"`) yields exactly
the bits `min..max` plus the wildcard-marker bit; `"*/step"` yields exactly
the stepped subset `{min, min+step, ...} ∩ [min, max]`, with the marker
cleared when `step > 1` and kept when `step = 1`. -/
theorem C3_wildcard_and_step (r : bounds) (sstep : String) (step j : Nat)
    (hm : r.min ≤ r.max) (hmax : r.max < 63)
    (hstep : mustParseInt sstep = .ok step) (hpos : 0 < step)
    (hs : ('/' : Char) ∉ sstep.data) :
    (getRange "*" r = .ok (getBits r.min r.max 1 ||| starBit) ∧
     getRange "?" r = .ok (getBits r.min r.max 1 ||| starBit)) ∧
    ((getBits r.min r.max 1 ||| starBit).testBit j = true ↔
      (j = 63 ∨ (r.min ≤ j ∧ j ≤ r.max))) ∧
    (getRange (String.mk ('*' :: '/' :: sstep.data)) r =
      .ok (getBits r.min r.max step |||
        (if 1 < step then 0 else starBit))) ∧
    ((getBits r.min r.max step).testBit j = true ↔
      (r.min ≤ j ∧ j ≤ r.max ∧ (j - r.min) % step = 0)) := by
  obtain ⟨sl⟩ := sstep
  refine ⟨⟨?_, ?_⟩, ?_, ?_, ?_⟩
  · show rangeChecks "*" r r.min r.max 1 starBit = _
    exact rangeChecks_pass _ r _ _ _ _ (le_refl _) (le_refl _) hm (by omega)
  · show rangeChecks "?" r r.min r.max 1 starBit = _
    exact rangeChecks_pass _ r _ _ _ _ (le_refl _) (le_refl _) hm (by omega)
  · rw [Nat.testBit_lor, Bool.or_eq_true, testBit_starBit, decide_eq_true_eq,
      testBit_getBits _ _ _ _ (by omega) (by omega), Nat.mod_one]
    omega
  · have hA : splitOnP (fun x => x = '/') ('*' :: '/' :: sl) =
        ['*'] :: splitOnP (fun x => x = '/') sl := by
      exact splitOnP_append_sep _ ['*'] '/' sl
        (by intro y hy; simp at hy; subst hy; simp) (by simp)
    have hB : splitOnP (fun x => x = '/') sl = [sl] := by
      refine splitOnP_eq_single _ _ ?_
      intro cc hcc
      simp only [decide_eq_false_iff_not]
      intro heq
      exact hs (heq ▸ hcc)
    have hras : goSplit (String.mk ('*' :: '/' :: sl)) '/' =
        ["*", String.mk sl] := by
      simp [goSplit, hA, hB]
    have e1 : getRange (String.mk ('*' :: '/' :: sl)) r =
        Except.bind
          (rangeStep (String.mk ('*' :: '/' :: sl)) r true r.max starBit
            ["*", String.mk sl])
          (fun q => rangeChecks (String.mk ('*' :: '/' :: sl)) r r.min
            q.2.1 q.1 q.2.2) := by
      simp only [getRange, hras]
      rfl
    rw [e1, rangeStep_two _ _ _ _ _ _ _ _ hstep]
    simp only [Except.bind, if_pos rfl]
    exact rangeChecks_pass _ r _ _ _ _ (le_refl _) (le_refl _)
      (le_trans hm (le_refl _)) hpos
  · rw [testBit_getBits _ _ _ _ hpos (by omega)]

/-! ### Claim C10 -/

/-- C10: an atom whose part before any slash begins with a `*` or `?`
silently ignores the rest of that part: `"*-s"` (or `"?-s"`) compiles
exactly like `"*"` (full range plus the wildcard marker, no error), and a
wildcard-led atom can never report a too-many-hyphens error. -/
theorem C10_wildcard_swallows_tail (s : String) (r : bounds)
    (expr a : String)
    (hs : ('/' : Char) ∉ s.data) (hm : r.min ≤ r.max)
    (hw : (goSplit ((goSplit expr '/').headD "") '-').headD "" = "*" ∨
          (goSplit ((goSplit expr '/').headD "") '-').headD "" = "?") :
    (getRange (String.mk ('*' :: '-' :: s.data)) r = getRange "*" r ∧
     getRange (String.mk ('?' :: '-' :: s.data)) r = getRange "?" r ∧
     getRange "*" r = .ok (getBits r.min r.max 1 ||| starBit)) ∧
    getRange expr r ≠ .error (.tooManyHyphens a) := by
  obtain ⟨sl⟩ := s
  have hstar : getRange "*" r = .ok (getBits r.min r.max 1 ||| starBit) := by
    show rangeChecks "*" r r.min r.max 1 starBit = _
    exact rangeChecks_pass _ r _ _ _ _ (le_refl _) (le_refl _) hm (by omega)
  have hq : getRange "?" r = .ok (getBits r.min r.max 1 ||| starBit) := by
    show rangeChecks "?" r r.min r.max 1 starBit = _
    exact rangeChecks_pass _ r _ _ _ _ (le_refl _) (le_refl _) hm (by omega)
  have key : ∀ c : Char, (c = '*' ∨ c = '?') →
      getRange (String.mk (c :: '-' :: sl)) r =
        .ok (getBits r.min r.max 1 ||| starBit) := by
    intro c hc
    have hras : goSplit (String.mk (c :: '-' :: sl)) '/' =
        [String.mk (c :: '-' :: sl)] := by
      refine congrArg (List.map String.mk) (splitOnP_eq_single _ _ ?_)
      intro y hy
      simp only [decide_eq_false_iff_not]
      intro heq
      subst heq
      simp only [List.mem_cons] at hy
      rcases hy with h1 | h2 | h3
      · rcases hc with rfl | rfl <;> simp at h1
      · simp at h2
      · exact hs h3
    have hlah : goSplit (String.mk (c :: '-' :: sl)) '-' =
        String.mk [c] :: (splitOnP (fun x => x = '-') sl).map String.mk := by
      have := splitOnP_append_sep (fun x => x = '-') [c] '-' sl
        (by
          intro y hy
          simp only [List.mem_singleton] at hy
          subst hy
          simp only [decide_eq_false_iff_not]
          rcases hc with rfl | rfl <;> decide)
        (by simp)
      simp only [goSplit]
      rw [show splitOnP (fun x => x = '-') (c :: '-' :: sl) =
        [c] :: splitOnP (fun x => x = '-') sl from this]
      rfl
    have hone : rangeStartEnd (String.mk (c :: '-' :: sl)) r
        (String.mk [c] :: (splitOnP (fun x => x = '-') sl).map String.mk) =
        .ok (r.min, r.max, starBit) := by
      unfold rangeStartEnd
      rw [if_pos]
      rcases hc with rfl | rfl
      · exact Or.inl rfl
      · exact Or.inr rfl
    have e1 : getRange (String.mk (c :: '-' :: sl)) r =
        rangeChecks (String.mk (c :: '-' :: sl)) r r.min r.max 1 starBit := by
      simp only [getRange, hras, List.headD_cons, hlah, hone, Except.bind]
      rw [show rangeStep (String.mk (c :: '-' :: sl)) r
        ((String.mk [c] ::
          (splitOnP (fun x => x = '-') sl).map String.mk).length == 1)
        r.max starBit [String.mk (c :: '-' :: sl)] =
        .ok (1, r.max, starBit) from rfl]
    rw [e1]
    exact rangeChecks_pass _ r _ _ _ _ (le_refl _) (le_refl _) hm (by omega)
  refine ⟨⟨?_, ?_, hstar⟩, ?_⟩
  · rw [key '*' (Or.inl rfl), hstar]
  · rw [key '?' (Or.inr rfl), hq]
  · intro hcontra
    have hse : rangeStartEnd expr r
        (goSplit ((goSplit expr '/').headD "") '-') =
        .ok (r.min, r.max, starBit) := by
      unfold rangeStartEnd
      rw [if_pos hw]
    simp only [getRange, hse, Except.bind] at hcontra
    cases hst : rangeStep expr r
        ((goSplit ((goSplit expr '/').headD "") '-').length == 1)
        r.max starBit (goSplit expr '/') with
    | error e =>
      rw [hst] at hcontra
      simp only [Except.bind] at hcontra
      have he : e = .tooManyHyphens a := by
        simpa using hcontra
      exact rangeStep_err_shape _ _ _ _ _ _ _ a hst he
    | ok q =>
      rw [hst] at hcontra
      simp only [Except.bind] at hcontra
      exact rangeChecks_err_shape _ _ _ _ _ _ _ a hcontra rfl

/-! ### Claim C4 -/

/-- C4: for `min ≤ lo ≤ hi ≤ max` and `step ≥ 1`, compiling `"lo-hi/step"`
sets exactly the bits `{lo, lo+step, ...} ∩ [lo, hi]` (for `step = 1` the
closed interval `[lo, hi]`), and a hyphen-free `"N/step"` is re-interpreted
as `"N-max/step"`; the `lo`/`hi` atoms may resolve through the bounds'
name table or as numerals (`parseIntOrName`), covering the named month and
day-of-week bounds. -/
theorem C4_range_with_step (r : bounds) (slo shi sstep : String)
    (lo hi step j : Nat)
    (hmax : r.max < 64)
    (hna : slo ≠ "*" ∧ slo ≠ "?")
    (hlo : parseIntOrName slo r.names = .ok lo)
    (hhi : parseIntOrName shi r.names = .ok hi)
    (hst : mustParseInt sstep = .ok step)
    (hlo1 : ('-' : Char) ∉ slo.data) (hlo2 : ('/' : Char) ∉ slo.data)
    (hhi1 : ('-' : Char) ∉ shi.data) (hhi2 : ('/' : Char) ∉ shi.data)
    (hss : ('/' : Char) ∉ sstep.data)
    (hb1 : r.min ≤ lo) (hb2 : lo ≤ hi) (hb3 : hi ≤ r.max) (hpos : 0 < step) :
    (getRange (String.mk (slo.data ++ '-' :: (shi.data ++ '/' :: sstep.data)))
      r = .ok (getBits lo hi step)) ∧
    ((getBits lo hi step).testBit j = true ↔
      (lo ≤ j ∧ j ≤ hi ∧ (j - lo) % step = 0)) ∧
    (step = 1 → ((getBits lo hi 1).testBit j = true ↔ (lo ≤ j ∧ j ≤ hi))) ∧
    (getRange (String.mk (slo.data ++ '/' :: sstep.data)) r =
      .ok (getBits lo r.max step)) ∧
    ((getBits lo r.max step).testBit j = true ↔
      (lo ≤ j ∧ j ≤ r.max ∧ (j - lo) % step = 0)) := by
  obtain ⟨llo⟩ := slo
  obtain ⟨lhi⟩ := shi
  obtain ⟨lst⟩ := sstep
  have hna' : ¬(String.mk llo = "*" ∨ String.mk llo = "?") := by
    rintro (h | h)
    · exact hna.1 h
    · exact hna.2 h
  refine ⟨?_, ?_, ?_, ?_, ?_⟩
  · have halist : llo ++ '-' :: (lhi ++ '/' :: lst) =
        (llo ++ '-' :: lhi) ++ '/' :: lst := by
      simp [List.append_assoc]
    have hs1 : splitOnP (fun x => x = '/') (llo ++ '-' :: (lhi ++ '/' :: lst)) =
        (llo ++ '-' :: lhi) :: splitOnP (fun x => x = '/') lst := by
      rw [halist]
      refine splitOnP_append_sep _ _ _ _ ?_ (by simp)
      intro y hy
      simp only [decide_eq_false_iff_not]
      intro heq
      subst heq
      simp only [List.mem_append, List.mem_cons] at hy
      rcases hy with h1 | h2 | h3
      · exact hlo2 h1
      · simp at h2
      · exact hhi2 h3
    have hs2 : splitOnP (fun x => x = '/') lst = [lst] := by
      refine splitOnP_eq_single _ _ ?_
      intro y hy
      simp only [decide_eq_false_iff_not]
      intro heq
      exact hss (heq ▸ hy)
    have hras1 : goSplit (String.mk (llo ++ '-' :: (lhi ++ '/' :: lst))) '/' =
        [String.mk (llo ++ '-' :: lhi), String.mk lst] := by
      simp only [goSplit]
      rw [hs1, hs2]
      rfl
    have hlah1 : goSplit (String.mk (llo ++ '-' :: lhi)) '-' =
        [String.mk llo, String.mk lhi] := by
      simp only [goSplit]
      rw [splitOnP_append_sep _ _ _ _
        (by
          intro y hy
          simp only [decide_eq_false_iff_not]
          intro heq
          exact hlo1 (heq ▸ hy))
        (by simp)]
      rw [splitOnP_eq_single _ _
        (by
          intro y hy
          simp only [decide_eq_false_iff_not]
          intro heq
          exact hhi1 (heq ▸ hy))]
      rfl
    have hone : rangeStartEnd
        (String.mk (llo ++ '-' :: (lhi ++ '/' :: lst))) r
        [String.mk llo, String.mk lhi] = .ok (lo, hi, 0) :=
      rangeStartEnd_two _ r _ _ hna' lo hi hlo hhi
    have e1 : getRange (String.mk (llo ++ '-' :: (lhi ++ '/' :: lst))) r =
        rangeChecks (String.mk (llo ++ '-' :: (lhi ++ '/' :: lst))) r
          lo hi step 0 := by
      simp only [getRange, hras1, List.headD_cons, hlah1, hone, Except.bind]
      rw [rangeStep_two _ r _ hi 0 _ _ step hst]
      rw [show (if ([String.mk llo, String.mk lhi].length == 1) = true
        then r.max else hi) = hi from rfl]
      rw [ite_self]
    rw [e1, rangeChecks_pass _ r _ _ _ _ hb1 hb3 hb2 hpos, Nat.or_zero]
  · rw [testBit_getBits _ _ _ _ hpos (by omega)]
  · intro h1
    rw [testBit_getBits _ _ _ _ (by omega) (by omega), Nat.mod_one]
    omega
  · have hs2 : splitOnP (fun x => x = '/') lst = [lst] := by
      refine splitOnP_eq_single _ _ ?_
      intro y hy
      simp only [decide_eq_false_iff_not]
      intro heq
      exact hss (heq ▸ hy)
    have hras2 : goSplit (String.mk (llo ++ '/' :: lst)) '/' =
        [String.mk llo, String.mk lst] := by
      simp only [goSplit]
      rw [splitOnP_append_sep _ _ _ _
        (by
          intro y hy
          simp only [decide_eq_false_iff_not]
          intro heq
          exact hlo2 (heq ▸ hy))
        (by simp), hs2]
      rfl
    have hlah2 : goSplit (String.mk llo) '-' = [String.mk llo] := by
      simp only [goSplit]
      rw [splitOnP_eq_single _ _
        (by
          intro y hy
          simp only [decide_eq_false_iff_not]
          intro heq
          exact hlo1 (heq ▸ hy))]
      rfl
    have hone2 : rangeStartEnd (String.mk (llo ++ '/' :: lst)) r
        [String.mk llo] = .ok (lo, lo, 0) :=
      rangeStartEnd_one _ r _ hna' lo hlo
    have e2 : getRange (String.mk (llo ++ '/' :: lst)) r =
        rangeChecks (String.mk (llo ++ '/' :: lst)) r lo r.max step 0 := by
      simp only [getRange, hras2, List.headD_cons, hlah2, hone2, Except.bind]
      rw [rangeStep_two _ r _ lo 0 _ _ step hst]
      rw [show (if ([String.mk llo].length == 1) = true
        then r.max else lo) = r.max from rfl]
      rw [ite_self]
    rw [e2, rangeChecks_pass _ r _ _ _ _ hb1 (le_refl _) (by omega) hpos,
      Nat.or_zero]
  · rw [testBit_getBits _ _ _ _ hpos (by omega)]

/-! ### Interval schedule lemmas -/

theorem every_delay_spec (d : Int) :
    (every d).delay = (max d timeSecond) - (max d timeSecond) % timeSecond ∧
    timeSecond ∣ (every d).delay ∧ timeSecond ≤ (every d).delay := by
  have htpos : (0 : Int) < timeSecond := by norm_num [timeSecond]
  set c : Int := if d < timeSecond then timeSecond else d with hc
  have hcmax : c = max d timeSecond := by
    rw [hc]
    rcases lt_or_ge d timeSecond with h | h
    · rw [if_pos h, max_eq_right (le_of_lt h)]
    · rw [if_neg (not_lt.mpr h), max_eq_left h]
  have hcge : timeSecond ≤ c := by
    rw [hcmax]
    exact le_max_right _ _
  have htmod : Int.tmod c timeSecond = c % timeSecond :=
    Int.tmod_eq_emod (by omega) (by omega)
  have hdelay : (every d).delay = c - c % timeSecond := by
    show (if d < timeSecond then timeSecond else d) -
      Int.tmod (if d < timeSecond then timeSecond else d) timeSecond = _
    rw [← hc, htmod]
  have hdm := Int.ediv_add_emod c timeSecond
  refine ⟨by rw [hdelay, hcmax], ?_, ?_⟩
  · rw [hdelay]
    exact ⟨c / timeSecond, by linarith⟩
  · rw [hdelay]
    have h3 : 1 ≤ c / timeSecond := by
      have h4 := Int.ediv_le_ediv htpos hcge
      rwa [Int.ediv_self (by omega)] at h4
    have h5 : timeSecond * 1 ≤ timeSecond * (c / timeSecond) :=
      mul_le_mul_of_nonneg_left h3 (by omega)
    have h6 : c % timeSecond < timeSecond := Int.emod_lt_of_pos c htpos
    omega

/-! ### Claim C8 -/

/-- C8: the constructed interval delay is the requested duration clamped up
to one second, then truncated to a whole second; hence it is a positive
multiple of one second, and 1500 ms becomes exactly 1 s. -/
theorem C8_every_clamp_truncate (d : Int) :
    (every d).delay = (max d timeSecond) - (max d timeSecond) % timeSecond ∧
    timeSecond ∣ (every d).delay ∧ timeSecond ≤ (every d).delay ∧
    (every 1500000000).delay = 1000000000 := by
  obtain ⟨h1, h2, h3⟩ := every_delay_spec d
  exact ⟨h1, h2, h3, by decide⟩

/-! ### Claim C9 -/

/-- C9: `Next` adds the stored delay after subtracting the instant's
sub-second remainder; the result is on a whole-second boundary and strictly
later than the argument, and iterating stays strictly increasing.
Instants are absolute nanosecond counts. -/
theorem C9_next_strictly_later (d t : Int) :
    everyNext (every d) t = t + ((every d).delay - timeNanosecond t) ∧
    timeSecond ∣ everyNext (every d) t ∧
    t < everyNext (every d) t ∧
    everyNext (every d) t < everyNext (every d) (everyNext (every d) t) := by
  have htpos : (0 : Int) < timeSecond := by norm_num [timeSecond]
  obtain ⟨-, hdvd, hge⟩ := every_delay_spec d
  have hfor : ∀ u : Int, u < everyNext (every d) u := by
    intro u
    have h1 : timeNanosecond u < timeSecond := Int.emod_lt_of_pos u htpos
    simp only [everyNext]
    omega
  have hdvd2 : timeSecond ∣ everyNext (every d) t := by
    simp only [everyNext, timeNanosecond]
    obtain ⟨k, hk⟩ := hdvd
    refine ⟨t / timeSecond + k, ?_⟩
    rw [hk, mul_add]
    linarith [Int.ediv_add_emod t timeSecond]
  exact ⟨rfl, hdvd2, hfor t, hfor _⟩

/-! ### Claim C7 -/

/-- C7: each specified input produces its specified error class: hyphen
count, negative number, slash count, below-minimum, above-maximum, field
count (6 expected, 4 found), empty spec, unrecognized descriptor. -/
theorem C7_error_classes (loc : Location) :
    getRange "5--5" ⟨0, 0, none⟩ = .error (.tooManyHyphens "5--5") ∧
    getRange "*/-12" ⟨0, 0, none⟩ = .error (.negativeNum (-12) "-12") ∧
    getRange "*//2" ⟨0, 0, none⟩ = .error (.tooManySlashes "*//2") ∧
    getRange "1" ⟨3, 5, none⟩ = .error (.belowMin 1 3 "1") ∧
    getRange "6" ⟨3, 5, none⟩ = .error (.aboveMax 6 5 "6") ∧
    ParseWithLocation "* * * *" loc =
      .error (.wrongFieldCount 6 4 ["*", "*", "*", "*"]) ∧
    ParseWithLocation "" loc = .error .emptySpec ∧
    ParseWithLocation "@bogus" loc =
      .error (.unrecognizedDescriptor "@bogus") := by
  exact ⟨by decide, by decide, by decide, by decide, by decide, rfl, rfl, rfl⟩

/-! ### Claim C2 -/

/-- C2 as stated is false: `@every 5m` stores a 300 s delay, and `Next` on
12:03:27 (encoded as nanoseconds of the day, sub-second remainder zero)
yields 12:08:27 = 43707000000000 ns, not the claimed 12:08:00 =
43680000000000 ns — only the sub-second remainder is zeroed, not the
seconds. -/
theorem C2_counterexample :
    ParseWithLocation "@every 5m" ⟨"Local"⟩ =
      .ok (.interval ⟨300000000000⟩) ∧
    everyNext ⟨300000000000⟩ 43407000000000 = 43707000000000 ∧
    (43707000000000 : Int) ≠ 43680000000000 := by
  exact ⟨by decide, by decide, by decide⟩

/-- C2 (amended): `@every 5m` on 12:03:27 returns 12:08:27; the delay is
added after zeroing only the sub-second remainder (12:03:27.4 also maps to
12:08:27), and successive calls keep the seconds phase 27 rather than
falling on wall-clock minute boundaries (next is 12:13:27, which is not a
whole minute). -/
theorem C2_fixed_phase :
    ParseWithLocation "@every 5m" ⟨"Local"⟩ =
      .ok (.interval (every 300000000000)) ∧
    every 300000000000 = ⟨300000000000⟩ ∧
    everyNext ⟨300000000000⟩ 43407000000000 = 43707000000000 ∧
    everyNext ⟨300000000000⟩ 43407400000000 = 43707000000000 ∧
    everyNext ⟨300000000000⟩ 43707000000000 = 44007000000000 ∧
    (44007000000000 : Int) % 60000000000 ≠ 0 := by
  exact ⟨by decide, by decide, by decide, by decide, by decide, by decide⟩

/-! ### Expression-level lemmas -/

theorem list_length_six {α : Type} (l : List α) (h : l.length = 6) :
    ∃ a b c d e f, l = [a, b, c, d, e, f] := by
  cases l with
  | nil => simp at h
  | cons a l1 =>
    cases l1 with
    | nil => simp at h
    | cons b l2 =>
      cases l2 with
      | nil => simp at h
      | cons c l3 =>
        cases l3 with
        | nil => simp at h
        | cons d l4 =>
          cases l4 with
          | nil => simp at h
          | cons e l5 =>
            cases l5 with
            | nil => simp at h
            | cons f l6 =>
              cases l6 with
              | nil => exact ⟨a, b, c, d, e, f, rfl⟩
              | cons g l7 => simp at h

theorem string_length_zero (s : String) (h : s.length = 0) : s = "" := by
  cases s with
  | mk l =>
    cases l with
    | nil => rfl
    | cons a as => simp [String.length] at h

theorem ParseWithLocation_fields (spec : String) (loc : Location)
    (f0 f1 f2 f3 f4 f5 : String)
    (hat : goHasPre "@" spec = false)
    (hfs : goFields spec = [f0, f1, f2, f3, f4, f5]) :
    ParseWithLocation spec loc =
      Except.bind (getField f0 seconds) (fun second =>
      Except.bind (getField f1 minutes) (fun minute =>
      Except.bind (getField f2 hours) (fun hour =>
      Except.bind (getField f3 doms) (fun dom =>
      Except.bind (getField f4 months) (fun month =>
      Except.bind (getField f5 dows) (fun dow =>
        Except.ok (.spec
          ⟨second, minute, hour, dom, month, dow, loc⟩))))))) := by
  have hne : spec.length ≠ 0 := by
    intro h0
    rw [string_length_zero spec h0] at hfs
    rw [show goFields "" = ([] : List String) from by decide] at hfs
    exact List.noConfusion hfs
  simp only [ParseWithLocation]
  rw [if_neg hne, if_neg (by simp [hat]), hfs, if_neg (by simp)]
  rfl

/-! ### Claim C6 -/

/-- C6: when a field fails to compile (all earlier fields succeeding), the
whole compile returns exactly that first field error, in field order
second, minute, hour, day-of-month, month, day-of-week; in the embedding
the `Except.error` result carries no schedule, mirroring the `(nil, err)`
return. -/
theorem C6_first_field_error (spec : String) (loc : Location) (e : ParseErr)
    (i : Nat)
    (hat : goHasPre "@" spec = false)
    (hlen : (goFields spec).length = 6)
    (hi : i < 6)
    (herr : getField ((goFields spec).getD i "")
      ([seconds, minutes, hours, doms, months, dows].getD i seconds) =
        .error e)
    (hok : ∀ j, j < i →
      ∃ m, getField ((goFields spec).getD j "")
        ([seconds, minutes, hours, doms, months, dows].getD j seconds) =
          .ok m) :
    ParseWithLocation spec loc = .error e := by
  obtain ⟨f0, f1, f2, f3, f4, f5, hfs⟩ := list_length_six _ hlen
  rw [ParseWithLocation_fields spec loc f0 f1 f2 f3 f4 f5 hat hfs]
  rw [hfs] at herr hok
  interval_cases i
  · have herr' : getField f0 seconds = .error e := herr
    rw [herr']
    rfl
  · obtain ⟨m0, h0⟩ := hok 0 (by omega)
    have h0' : getField f0 seconds = .ok m0 := h0
    have herr' : getField f1 minutes = .error e := herr
    rw [h0', herr']
    rfl
  · obtain ⟨m0, h0⟩ := hok 0 (by omega)
    obtain ⟨m1, h1⟩ := hok 1 (by omega)
    have h0' : getField f0 seconds = .ok m0 := h0
    have h1' : getField f1 minutes = .ok m1 := h1
    have herr' : getField f2 hours = .error e := herr
    rw [h0', h1', herr']
    rfl
  · obtain ⟨m0, h0⟩ := hok 0 (by omega)
    obtain ⟨m1, h1⟩ := hok 1 (by omega)
    obtain ⟨m2, h2⟩ := hok 2 (by omega)
    have h0' : getField f0 seconds = .ok m0 := h0
    have h1' : getField f1 minutes = .ok m1 := h1
    have h2' : getField f2 hours = .ok m2 := h2
    have herr' : getField f3 doms = .error e := herr
    rw [h0', h1', h2', herr']
    rfl
  · obtain ⟨m0, h0⟩ := hok 0 (by omega)
    obtain ⟨m1, h1⟩ := hok 1 (by omega)
    obtain ⟨m2, h2⟩ := hok 2 (by omega)
    obtain ⟨m3, h3⟩ := hok 3 (by omega)
    have h0' : getField f0 seconds = .ok m0 := h0
    have h1' : getField f1 minutes = .ok m1 := h1
    have h2' : getField f2 hours = .ok m2 := h2
    have h3' : getField f3 doms = .ok m3 := h3
    have herr' : getField f4 months = .error e := herr
    rw [h0', h1', h2', h3', herr']
    rfl
  · obtain ⟨m0, h0⟩ := hok 0 (by omega)
    obtain ⟨m1, h1⟩ := hok 1 (by omega)
    obtain ⟨m2, h2⟩ := hok 2 (by omega)
    obtain ⟨m3, h3⟩ := hok 3 (by omega)
    obtain ⟨m4, h4⟩ := hok 4 (by omega)
    have h0' : getField f0 seconds = .ok m0 := h0
    have h1' : getField f1 minutes = .ok m1 := h1
    have h2' : getField f2 hours = .ok m2 := h2
    have h3' : getField f3 doms = .ok m3 := h3
    have h4' : getField f4 months = .ok m4 := h4
    have herr' : getField f5 dows = .error e := herr
    rw [h0', h1', h2', h3', h4', herr']
    rfl

/-! ### Claim C5 -/

/-- C5: descriptor resolution maps each recognized literal to its specified
schedule (single bits at field minima, `allBits` for unconstrained fields),
routes `"@every <text>"` through duration parsing to an interval schedule,
and rejects every other `@`-text as an unrecognized descriptor. -/
theorem C5_descriptor_table (loc : Location) :
    (ParseWithLocation "@yearly" loc = .ok (.spec
      ⟨goShl 1 seconds.min, goShl 1 minutes.min, goShl 1 hours.min,
        goShl 1 doms.min, goShl 1 months.min, allBits dows, loc⟩)) ∧
    (ParseWithLocation "@annually" loc = .ok (.spec
      ⟨goShl 1 seconds.min, goShl 1 minutes.min, goShl 1 hours.min,
        goShl 1 doms.min, goShl 1 months.min, allBits dows, loc⟩)) ∧
    (ParseWithLocation "@monthly" loc = .ok (.spec
      ⟨goShl 1 seconds.min, goShl 1 minutes.min, goShl 1 hours.min,
        goShl 1 doms.min, allBits months, allBits dows, loc⟩)) ∧
    (ParseWithLocation "@weekly" loc = .ok (.spec
      ⟨goShl 1 seconds.min, goShl 1 minutes.min, goShl 1 hours.min,
        allBits doms, allBits months, goShl 1 dows.min, loc⟩)) ∧
    (ParseWithLocation "@daily" loc = .ok (.spec
      ⟨goShl 1 seconds.min, goShl 1 minutes.min, goShl 1 hours.min,
        allBits doms, allBits months, allBits dows, loc⟩)) ∧
    (ParseWithLocation "@midnight" loc = .ok (.spec
      ⟨goShl 1 seconds.min, goShl 1 minutes.min, goShl 1 hours.min,
        allBits doms, allBits months, allBits dows, loc⟩)) ∧
    (ParseWithLocation "@hourly" loc = .ok (.spec
      ⟨goShl 1 seconds.min, goShl 1 minutes.min, allBits hours,
        allBits doms, allBits months, allBits dows, loc⟩)) ∧
    (∀ d, goHasPre "@every " d = true →
      ParseWithLocation d loc =
        (match parseDuration (goDrop d 7) with
          | none => .error (.failedParseDuration d)
          | some dur => .ok (.interval (every dur)))) ∧
    (∀ d, goHasPre "@" d = true →
      d ≠ "@yearly" → d ≠ "@annually" → d ≠ "@monthly" → d ≠ "@weekly" →
      d ≠ "@daily" → d ≠ "@midnight" → d ≠ "@hourly" →
      goHasPre "@every " d = false →
      ParseWithLocation d loc = .error (.unrecognizedDescriptor d)) := by
  refine ⟨rfl, rfl, rfl, rfl, rfl, rfl, rfl, ?_, ?_⟩
  · intro d hd
    obtain ⟨l⟩ := d
    rw [goHasPre, List.isPrefixOf_iff_prefix] at hd
    obtain ⟨t, ht⟩ := hd
    have hl : l = '@' :: 'e' :: 'v' :: 'e' :: 'r' :: 'y' :: ' ' :: t :=
      ht.symm
    subst hl
    simp only [ParseWithLocation]
    rw [if_neg (by simp [String.length]),
      if_pos (by simp [goHasPre, List.isPrefixOf])]
    simp only [parseDescriptor]
    rw [if_neg (by
        rintro (h | h) <;>
          exact absurd (congrArg String.data h) (by simp))]
    rw [if_neg (by
        intro h
        exact absurd (congrArg String.data h) (by simp))]
    rw [if_neg (by
        intro h
        exact absurd (congrArg String.data h) (by simp))]
    rw [if_neg (by
        rintro (h | h) <;>
          exact absurd (congrArg String.data h) (by simp))]
    rw [if_neg (by
        intro h
        exact absurd (congrArg String.data h) (by simp))]
    rw [if_pos (by simp [goHasPre, List.isPrefixOf])]
  · intro d hat hy1 hy2 hy3 hy4 hy5 hy6 hy7 heve
    have hne : d.length ≠ 0 := by
      intro h0
      rw [string_length_zero d h0] at hat
      exact absurd hat (by decide)
    simp only [ParseWithLocation]
    rw [if_neg hne, if_pos hat]
    simp only [parseDescriptor]
    rw [if_neg (by rintro (h | h); exact hy1 h; exact hy2 h)]
    rw [if_neg hy3]
    rw [if_neg hy4]
    rw [if_neg (by rintro (h | h); exact hy5 h; exact hy6 h)]
    rw [if_neg hy7]
    rw [if_neg (by simp [heve])]

/-! ### Mask invariant helpers -/

theorem maskOk_one (k : Nat) (r : bounds)
    (hk : r.min ≤ k ∧ k ≤ r.max ∧ k < 63) :
    maskOkFor (goShl 1 k) r ∧ maskNonempty (goShl 1 k) := by
  constructor
  · intro j hne hbit
    rw [testBit_goShl_iff] at hbit
    obtain ⟨-, hk2, hb⟩ := hbit
    have hj : j = k := by
      rw [show (1 : Nat) = 2 ^ 0 from rfl, Nat.testBit_two_pow] at hb
      simp at hb
      omega
    omega
  · refine ⟨k, by omega, ?_⟩
    rw [testBit_goShl_iff]
    refine ⟨by omega, le_refl _, ?_⟩
    rw [show k - k = 0 from by omega]
    decide

theorem maskOk_allBits (r : bounds) (h : r.min ≤ r.max ∧ r.max < 63) :
    maskOkFor (allBits r) r ∧ maskNonempty (allBits r) := by
  constructor
  · intro j hne hbit
    unfold allBits at hbit
    rw [Nat.testBit_lor, Bool.or_eq_true] at hbit
    rcases hbit with hb | hb
    · have := (testBit_getBits _ _ _ _ (by omega) (by omega)).mp hb
      omega
    · rw [testBit_starBit] at hb
      simp at hb
      exact absurd hb hne
  · refine ⟨r.min, by omega, ?_⟩
    unfold allBits
    rw [Nat.testBit_lor, Bool.or_eq_true]
    exact Or.inl ((testBit_getBits _ _ _ _ (by omega) (by omega)).mpr
      ⟨le_refl _, h.1, by simp⟩)

theorem parseDescriptor_masks (d : String) (loc : Location)
    (s : specSchedule) (h : parseDescriptor d loc = .ok (.spec s)) :
    (maskOkFor s.second seconds ∧ maskOkFor s.minute minutes ∧
     maskOkFor s.hour hours ∧ maskOkFor s.dom doms ∧
     maskOkFor s.month months ∧ maskOkFor s.dow dows) ∧
    (maskNonempty s.second ∧ maskNonempty s.minute ∧ maskNonempty s.hour ∧
     maskNonempty s.dom ∧ maskNonempty s.month ∧ maskNonempty s.dow) := by
  unfold parseDescriptor at h
  split_ifs at h with h1 h2 h3 h4 h5 h6
  · simp only [Except.ok.injEq, Schedule.spec.injEq] at h
    subst h
    exact ⟨⟨(maskOk_one seconds.min seconds (by decide)).1,
      (maskOk_one minutes.min minutes (by decide)).1,
      (maskOk_one hours.min hours (by decide)).1,
      (maskOk_one doms.min doms (by decide)).1,
      (maskOk_one months.min months (by decide)).1,
      (maskOk_allBits dows (by decide)).1⟩,
      (maskOk_one seconds.min seconds (by decide)).2,
      (maskOk_one minutes.min minutes (by decide)).2,
      (maskOk_one hours.min hours (by decide)).2,
      (maskOk_one doms.min doms (by decide)).2,
      (maskOk_one months.min months (by decide)).2,
      (maskOk_allBits dows (by decide)).2⟩
  · simp only [Except.ok.injEq, Schedule.spec.injEq] at h
    subst h
    exact ⟨⟨(maskOk_one seconds.min seconds (by decide)).1,
      (maskOk_one minutes.min minutes (by decide)).1,
      (maskOk_one hours.min hours (by decide)).1,
      (maskOk_one doms.min doms (by decide)).1,
      (maskOk_allBits months (by decide)).1,
      (maskOk_allBits dows (by decide)).1⟩,
      (maskOk_one seconds.min seconds (by decide)).2,
      (maskOk_one minutes.min minutes (by decide)).2,
      (maskOk_one hours.min hours (by decide)).2,
      (maskOk_one doms.min doms (by decide)).2,
      (maskOk_allBits months (by decide)).2,
      (maskOk_allBits dows (by decide)).2⟩
  · simp only [Except.ok.injEq, Schedule.spec.injEq] at h
    subst h
    exact ⟨⟨(maskOk_one seconds.min seconds (by decide)).1,
      (maskOk_one minutes.min minutes (by decide)).1,
      (maskOk_one hours.min hours (by decide)).1,
      (maskOk_allBits doms (by decide)).1,
      (maskOk_allBits months (by decide)).1,
      (maskOk_one dows.min dows (by decide)).1⟩,
      (maskOk_one seconds.min seconds (by decide)).2,
      (maskOk_one minutes.min minutes (by decide)).2,
      (maskOk_one hours.min hours (by decide)).2,
      (maskOk_allBits doms (by decide)).2,
      (maskOk_allBits months (by decide)).2,
      (maskOk_one dows.min dows (by decide)).2⟩
  · simp only [Except.ok.injEq, Schedule.spec.injEq] at h
    subst h
    exact ⟨⟨(maskOk_one seconds.min seconds (by decide)).1,
      (maskOk_one minutes.min minutes (by decide)).1,
      (maskOk_one hours.min hours (by decide)).1,
      (maskOk_allBits doms (by decide)).1,
      (maskOk_allBits months (by decide)).1,
      (maskOk_allBits dows (by decide)).1⟩,
      (maskOk_one seconds.min seconds (by decide)).2,
      (maskOk_one minutes.min minutes (by decide)).2,
      (maskOk_one hours.min hours (by decide)).2,
      (maskOk_allBits doms (by decide)).2,
      (maskOk_allBits months (by decide)).2,
      (maskOk_allBits dows (by decide)).2⟩
  · simp only [Except.ok.injEq, Schedule.spec.injEq] at h
    subst h
    exact ⟨⟨(maskOk_one seconds.min seconds (by decide)).1,
      (maskOk_one minutes.min minutes (by decide)).1,
      (maskOk_allBits hours (by decide)).1,
      (maskOk_allBits doms (by decide)).1,
      (maskOk_allBits months (by decide)).1,
      (maskOk_allBits dows (by decide)).1⟩,
      (maskOk_one seconds.min seconds (by decide)).2,
      (maskOk_one minutes.min minutes (by decide)).2,
      (maskOk_allBits hours (by decide)).2,
      (maskOk_allBits doms (by decide)).2,
      (maskOk_allBits months (by decide)).2,
      (maskOk_allBits dows (by decide)).2⟩
  all_goals
    first
      | exact Except.noConfusion h
      | (split at h <;>
          first
            | exact Except.noConfusion h
            | simp at h)

/-! ### Claim C1 -/

/-- C1 as stated is false: the expression `", * * * * *"` compiles without
error, yet its seconds mask is 0 — a field text consisting only of commas
splits into zero range expressions, so no bit is ever set. -/
theorem C1_counterexample :
    ParseWithLocation ", * * * * *" ⟨"Local"⟩ =
      .ok (.spec ⟨0, allBits minutes, allBits hours, allBits doms,
        allBits months, allBits dows, ⟨"Local"⟩⟩) ∧
    ∀ j, (0 : Nat).testBit j = false :=
  ⟨by decide, fun j => Nat.zero_testBit j⟩

/-- C1 (amended): every successfully compiled spec-schedule has all value
bits (bits other than the wildcard marker) within each field's bounds; and
each mask has at least one value bit set provided the expression is a
descriptor or every whitespace field contains at least one range
expression (i.e. is not made solely of commas). -/
theorem C1_mask_invariants (spec : String) (loc : Location)
    (s : specSchedule) (h : ParseWithLocation spec loc = .ok (.spec s)) :
    (maskOkFor s.second seconds ∧ maskOkFor s.minute minutes ∧
     maskOkFor s.hour hours ∧ maskOkFor s.dom doms ∧
     maskOkFor s.month months ∧ maskOkFor s.dow dows) ∧
    ((goHasPre "@" spec = true ∨
        ∀ f ∈ goFields spec, goFieldsComma f ≠ []) →
      (maskNonempty s.second ∧ maskNonempty s.minute ∧
       maskNonempty s.hour ∧ maskNonempty s.dom ∧
       maskNonempty s.month ∧ maskNonempty s.dow)) := by
  by_cases h0 : spec.length = 0
  · rw [ParseWithLocation, if_pos h0] at h
    exact Except.noConfusion h
  · by_cases hat : goHasPre "@" spec = true
    · rw [ParseWithLocation, if_neg h0, if_pos hat] at h
      obtain ⟨hok6, hne6⟩ := parseDescriptor_masks spec loc s h
      exact ⟨hok6, fun _ => hne6⟩
    · have hat' : goHasPre "@" spec = false := by
        revert hat
        cases goHasPre "@" spec <;> simp
      by_cases hlen : (goFields spec).length = 6
      · obtain ⟨f0, f1, f2, f3, f4, f5, hfs⟩ := list_length_six _ hlen
        rw [ParseWithLocation_fields spec loc f0 f1 f2 f3 f4 f5 hat' hfs]
          at h
        rw [except_bind_ok] at h
        obtain ⟨m0, hg0, h⟩ := h
        rw [except_bind_ok] at h
        obtain ⟨m1, hg1, h⟩ := h
        rw [except_bind_ok] at h
        obtain ⟨m2, hg2, h⟩ := h
        rw [except_bind_ok] at h
        obtain ⟨m3, hg3, h⟩ := h
        rw [except_bind_ok] at h
        obtain ⟨m4, hg4, h⟩ := h
        rw [except_bind_ok] at h
        obtain ⟨m5, hg5, h⟩ := h
        simp only [Except.ok.injEq, Schedule.spec.injEq] at h
        subst h
        have hb0 := getField_ok f0 seconds m0 hg0 (by decide)
        have hb1 := getField_ok f1 minutes m1 hg1 (by decide)
        have hb2 := getField_ok f2 hours m2 hg2 (by decide)
        have hb3 := getField_ok f3 doms m3 hg3 (by decide)
        have hb4 := getField_ok f4 months m4 hg4 (by decide)
        have hb5 := getField_ok f5 dows m5 hg5 (by decide)
        refine ⟨⟨hb0.1, hb1.1, hb2.1, hb3.1, hb4.1, hb5.1⟩, ?_⟩
        rintro (hcase | hcase)
        · rw [hat'] at hcase
          exact absurd hcase (by simp)
        · refine ⟨hb0.2 (hcase f0 (by rw [hfs]; simp)),
            hb1.2 (hcase f1 (by rw [hfs]; simp)),
            hb2.2 (hcase f2 (by rw [hfs]; simp)),
            hb3.2 (hcase f3 (by rw [hfs]; simp)),
            hb4.2 (hcase f4 (by rw [hfs]; simp)),
            hb5.2 (hcase f5 (by rw [hfs]; simp))⟩
      · rw [ParseWithLocation, if_neg h0, if_neg (by simp [hat']),
          if_pos hlen] at h
        exact Except.noConfusion h

/-! ### Witnesses -/

theorem C1_mask_invariants_witness :
    maskOkFor 1 seconds ∧ maskNonempty (allBits dows) := by
  have h := C1_mask_invariants "0 5 * * * *" ⟨"L"⟩
    ⟨1, 32, allBits hours, allBits doms, allBits months, allBits dows,
      ⟨"L"⟩⟩ (by decide)
  exact ⟨h.1.1, (h.2 (Or.inr (by decide))).2.2.2.2.2⟩

theorem C3_wildcard_and_step_witness :
    getRange "*" ⟨1, 3, none⟩ = .ok (getBits 1 3 1 ||| starBit) ∧
    ((getBits 1 3 2).testBit 3 = true ↔
      (1 ≤ 3 ∧ 3 ≤ 3 ∧ (3 - 1) % 2 = 0)) := by
  have h := C3_wildcard_and_step ⟨1, 3, none⟩ "2" 2 3
    (by decide) (by decide) (by decide) (by decide) (by decide)
  exact ⟨h.1.1, h.2.2.2⟩

theorem C4_range_with_step_witness :
    getRange "1-5/2" ⟨0, 7, none⟩ = .ok (getBits 1 5 2) ∧
    getRange "1/2" ⟨0, 7, none⟩ = .ok (getBits 1 7 2) ∧
    getRange "jan-dec/2" months = .ok (getBits 1 12 2) := by
  have h := C4_range_with_step ⟨0, 7, none⟩ "1" "5" "2" 1 5 2 3
    (by decide) (by decide) (by decide) (by decide) (by decide)
    (by decide) (by decide) (by decide) (by decide) (by decide)
    (by decide) (by decide) (by decide) (by decide)
  have hm := C4_range_with_step months "jan" "dec" "2" 1 12 2 3
    (by decide) (by decide) (by decide) (by decide) (by decide)
    (by decide) (by decide) (by decide) (by decide) (by decide)
    (by decide) (by decide) (by decide) (by decide)
  exact ⟨h.1, h.2.2.2.1, hm.1⟩

theorem C5_descriptor_table_witness :
    ParseWithLocation "@hourly" ⟨"L"⟩ = .ok (.spec
      ⟨goShl 1 seconds.min, goShl 1 minutes.min, allBits hours,
        allBits doms, allBits months, allBits dows, ⟨"L"⟩⟩) ∧
    ParseWithLocation "@every 5m" ⟨"L"⟩ =
      .ok (.interval (every 300000000000)) ∧
    ParseWithLocation "@bogus" ⟨"L"⟩ =
      .error (.unrecognizedDescriptor "@bogus") := by
  have h := C5_descriptor_table ⟨"L"⟩
  refine ⟨h.2.2.2.2.2.2.1, ?_, ?_⟩
  · have h8 := h.2.2.2.2.2.2.2.1 "@every 5m" (by decide)
    rw [h8]
    decide
  · exact h.2.2.2.2.2.2.2.2 "@bogus" (by decide) (by decide) (by decide)
      (by decide) (by decide) (by decide) (by decide) (by decide)
      (by decide)

theorem C6_first_field_error_witness :
    ParseWithLocation "x * * * * *" ⟨"L"⟩ =
      .error (.failedParseInt "x") :=
  C6_first_field_error "x * * * * *" ⟨"L"⟩ (.failedParseInt "x") 0
    (by decide) (by decide) (by decide) (by decide)
    (fun j hj => absurd hj (by omega))

theorem C10_wildcard_swallows_tail_witness :
    getRange "*-7" ⟨0, 5, none⟩ = getRange "*" ⟨0, 5, none⟩ ∧
    getRange "*/2-3" ⟨0, 5, none⟩ ≠ .error (.tooManyHyphens "*/2-3") := by
  have h := C10_wildcard_swallows_tail "7" ⟨0, 5, none⟩ "*/2-3" "*/2-3"
    (by decide) (by decide) (by decide)
  exact ⟨h.1.1, h.2⟩
